import Mathlib

/-
  Verification of the radicle-node replication engine (crate radicle-fetch)
  against its specification.

  The development shallowly embeds the parts of the source that the claims
  touch:

  * `src/radicle-fetch/src/gix/odb.rs`        — object database, ancestry walk
  * `src/radicle-fetch/src/gix/refdb.rs`      — reference database, updates
  * `src/radicle-fetch/src/gix/refdb/mem.rs`  — in-memory staging refdb
  * `src/radicle-fetch/src/transport.rs`      — wants/haves builder
  * `src/radicle-fetch/src/stage.rs`          — Clone / Fetch / Refs steps
  * `src/radicle-fetch/src/state.rs`          — fetch state bookkeeping
  * `src/radicle-fetch/src/protocol.rs`       — exchange driver partition
  * `src/radicle-fetch/src/refs.rs`           — refname grammar helpers

  Object ids (20-byte SHA-1 values) are modelled as `Nat`, with `0` playing
  the role of the null id.  Reference names are modelled as `String`s; the
  Rust code compares refnames with byte-wise `starts_with` / `ends_with`,
  which we model with character-list prefix/suffix tests.  Public keys are
  modelled by their string form (the namespace component).
-/

namespace Spec2Proof

abbrev Oid := Nat

abbrev PublicKey := String

/-- Byte-wise `str::starts_with`, on the character lists of the strings. -/
def strStartsWith (s pre : String) : Bool :=
  pre.data.isPrefixOf s.data

/-- Byte-wise `str::ends_with`, on the character lists of the strings. -/
def strEndsWith (s post : String) : Bool :=
  post.data.isSuffixOf s.data

/-- `refs/namespaces/<pk>/<suffix>`: composition of a namespaced refname
(`refs.rs`, `Namespaced::from(RemoteRef)`). -/
def nsName (pk sfx : String) : String :=
  "refs/namespaces/" ++ pk ++ "/" ++ sfx

/-! ## Object database (`gix/odb.rs`)

The object store is restricted to commits: an association list mapping a
commit id to the list of its parent ids.  `Odb::is_in_ancestry_path` walks
the commit graph from `new` looking for `old`; we realise the walk as the
(finite) closure of the parent relation.  The `MissingObject` error path of
the walk (a parent id absent from the store) is handled by the `ClosedStore`
hypothesis on the theorems that exercise the walk. -/

abbrev Store := List (Oid × List Oid)

def findParents : Store → Oid → Option (List Oid)
  | [], _ => none
  | (k, ps) :: rest, x => if k = x then some ps else findParents rest x

/-- `Odb::contains`. -/
def containsOid (g : Store) (x : Oid) : Bool :=
  (findParents g x).isSome

def parentsOf (g : Store) (x : Oid) : List Oid :=
  match findParents g x with
  | some ps => ps
  | none => []

/-- Every id mentioned in the store, together with the start of a walk. -/
def oidUniverse (g : Store) (start : Oid) : Finset Oid :=
  insert start ((g.map Prod.fst).toFinset ∪ (g.flatMap Prod.snd).toFinset)

/-- One round of the ancestry walk: add the parents of everything seen. -/
def expandAncestors (g : Store) (s : Finset Oid) : Finset Oid :=
  s ∪ s.biUnion (fun x => (parentsOf g x).toFinset)

/-- The set of commits the revwalk starting at `start` visits. -/
def ancestorClosure (g : Store) (start : Oid) : Finset Oid :=
  (fun s => expandAncestors g s)^[(oidUniverse g start).card] {start}

/-- The one-step parent relation of the store. -/
def StepRel (g : Store) (a b : Oid) : Prop := b ∈ parentsOf g a

/-- `b` is reachable from `a` through the parent chain. -/
def Reaches (g : Store) (a b : Oid) : Prop :=
  Relation.ReflTransGen (StepRel g) a b

/-- Every parent recorded in the store is itself present in the store. -/
def ClosedStore (g : Store) : Prop :=
  ∀ kps ∈ g, ∀ q ∈ kps.2, containsOid g q = true

instance (g : Store) : Decidable (ClosedStore g) := by
  unfold ClosedStore
  infer_instance

/-- `Odb::is_in_ancestry_path(new, old)`: true when `old` is in the parent
chain of `new`.  Equal ids are trivially in ancestry; if either id is
missing from the store the result is `false`; otherwise the commit graph is
walked from `new`. -/
def is_in_ancestry_path (g : Store) (nw old : Oid) : Bool :=
  if nw = old then true
  else if !(containsOid g nw && containsOid g old) then false
  else decide (old ∈ ancestorClosure g nw)

theorem findParents_mem {g : Store} {x : Oid} {ps : List Oid}
    (h : findParents g x = some ps) : (x, ps) ∈ g := by
  induction g with
  | nil => simp [findParents] at h
  | cons kps rest ih =>
    obtain ⟨k, qs⟩ := kps
    by_cases hk : k = x
    · subst hk
      simp [findParents] at h
      simp [h]
    · simp [findParents, hk] at h
      exact List.mem_cons_of_mem _ (ih h)

theorem parentsOf_subset_univ {g : Store} {start x y : Oid}
    (h : y ∈ parentsOf g x) : y ∈ oidUniverse g start := by
  unfold parentsOf at h
  cases hfind : findParents g x with
  | none => rw [hfind] at h; simp at h
  | some ps =>
    rw [hfind] at h
    have hmem : (x, ps) ∈ g := findParents_mem hfind
    have : y ∈ g.flatMap Prod.snd := by
      refine List.mem_flatMap.mpr ⟨(x, ps), hmem, h⟩
    unfold oidUniverse
    exact Finset.mem_insert_of_mem (Finset.mem_union_right _ (List.mem_toFinset.mpr this))

theorem subset_expandAncestors (g : Store) (s : Finset Oid) :
    s ⊆ expandAncestors g s :=
  Finset.subset_union_left

theorem expandAncestors_mono {g : Store} {s t : Finset Oid} (h : s ⊆ t) :
    expandAncestors g s ⊆ expandAncestors g t := by
  unfold expandAncestors
  exact Finset.union_subset_union h (Finset.biUnion_subset_biUnion_of_subset_left _ h)

theorem expandAncestors_subset_univ {g : Store} {start : Oid} {s : Finset Oid}
    (h : s ⊆ oidUniverse g start) :
    expandAncestors g s ⊆ oidUniverse g start := by
  unfold expandAncestors
  refine Finset.union_subset h ?_
  refine Finset.biUnion_subset.mpr ?_
  intro x _ y hy
  exact parentsOf_subset_univ (List.mem_toFinset.mp hy)

theorem iterAncestors_subset_univ (g : Store) (start : Oid) (n : Nat) :
    (fun s => expandAncestors g s)^[n] {start} ⊆ oidUniverse g start := by
  induction n with
  | zero =>
    intro x hx
    simp at hx
    subst hx
    exact Finset.mem_insert_self _ _
  | succ n ih =>
    rw [Function.iterate_succ_apply']
    exact expandAncestors_subset_univ ih

theorem iterAncestors_mono_succ (g : Store) (start : Oid) (n : Nat) :
    (fun s => expandAncestors g s)^[n] {start}
      ⊆ (fun s => expandAncestors g s)^[n + 1] {start} := by
  rw [Function.iterate_succ_apply']
  exact subset_expandAncestors g _

theorem iterAncestors_mono (g : Store) (start : Oid) {m n : Nat} (h : m ≤ n) :
    (fun s => expandAncestors g s)^[m] {start}
      ⊆ (fun s => expandAncestors g s)^[n] {start} := by
  induction n with
  | zero =>
    have : m = 0 := Nat.le_zero.mp h
    subst this
    exact Finset.Subset.refl _
  | succ n ih =>
    rcases Nat.lt_or_ge m (n + 1) with hlt | hge
    · exact (ih (Nat.lt_succ_iff.mp hlt)).trans (iterAncestors_mono_succ g start n)
    · have : m = n + 1 := Nat.le_antisymm h hge
      subst this
      exact Finset.Subset.refl _

theorem iterAncestors_stable (g : Store) (start : Oid) {n : Nat}
    (h : (fun s => expandAncestors g s)^[n] {start}
        = (fun s => expandAncestors g s)^[n + 1] {start}) :
    ∀ m, n ≤ m →
      (fun s => expandAncestors g s)^[m] {start}
        = (fun s => expandAncestors g s)^[n] {start} := by
  intro m hm
  induction m with
  | zero =>
    have : n = 0 := Nat.le_zero.mp hm
    subst this; rfl
  | succ m ih =>
    rcases Nat.lt_or_ge n (m + 1) with hlt | hge
    · have hm' : n ≤ m := Nat.lt_succ_iff.mp hlt
      have heq := ih hm'
      calc (fun s => expandAncestors g s)^[m + 1] {start}
          = expandAncestors g ((fun s => expandAncestors g s)^[m] {start}) := by
            rw [Function.iterate_succ_apply']
        _ = expandAncestors g ((fun s => expandAncestors g s)^[n] {start}) := by rw [heq]
        _ = (fun s => expandAncestors g s)^[n + 1] {start} := by
            rw [Function.iterate_succ_apply']
        _ = (fun s => expandAncestors g s)^[n] {start} := h.symm
    · have : n = m + 1 := Nat.le_antisymm hm hge
      subst this; rfl

theorem iterAncestors_card_grow (g : Store) (start : Oid) :
    ∀ n, (∀ k < n,
        (fun s => expandAncestors g s)^[k] {start}
          ≠ (fun s => expandAncestors g s)^[k + 1] {start}) →
      n ≤ ((fun s => expandAncestors g s)^[n] {start}).card := by
  intro n
  induction n with
  | zero => intro _; exact Nat.zero_le _
  | succ n ih =>
    intro h
    have hn : n ≤ ((fun s => expandAncestors g s)^[n] {start}).card :=
      ih (fun k hk => h k (Nat.lt_succ_of_lt hk))
    have hne := h n (Nat.lt_succ_self n)
    have hsub := iterAncestors_mono_succ g start n
    have hss : (fun s => expandAncestors g s)^[n] {start}
        ⊂ (fun s => expandAncestors g s)^[n + 1] {start} :=
      HasSubset.Subset.ssubset_of_ne hsub hne
    have := Finset.card_lt_card hss
    omega

theorem exists_iterAncestors_fixed (g : Store) (start : Oid) :
    ∃ n ≤ (oidUniverse g start).card,
      (fun s => expandAncestors g s)^[n] {start}
        = (fun s => expandAncestors g s)^[n + 1] {start} := by
  by_contra hcon
  push_neg at hcon
  set N := (oidUniverse g start).card with hN
  have hall : ∀ k < N + 1,
      (fun s => expandAncestors g s)^[k] {start}
        ≠ (fun s => expandAncestors g s)^[k + 1] {start} := by
    intro k hk
    exact hcon k (Nat.lt_succ_iff.mp hk)
  have hge := iterAncestors_card_grow g start (N + 1) hall
  have hle : ((fun s => expandAncestors g s)^[N + 1] {start}).card ≤ N :=
    Finset.card_le_card (iterAncestors_subset_univ g start (N + 1))
  omega

theorem ancestorClosure_fixed (g : Store) (start : Oid) :
    expandAncestors g (ancestorClosure g start) = ancestorClosure g start := by
  obtain ⟨n, hn, hfix⟩ := exists_iterAncestors_fixed g start
  unfold ancestorClosure
  set N := (oidUniverse g start).card with hN
  have h1 := iterAncestors_stable g start hfix N hn
  have h2 := iterAncestors_stable g start hfix (N + 1) (Nat.le_succ_of_le hn)
  calc expandAncestors g ((fun s => expandAncestors g s)^[N] {start})
      = (fun s => expandAncestors g s)^[N + 1] {start} := by
        rw [Function.iterate_succ_apply']
    _ = (fun s => expandAncestors g s)^[n] {start} := h2
    _ = (fun s => expandAncestors g s)^[N] {start} := h1.symm

theorem mem_iterAncestors_reaches (g : Store) (start : Oid) :
    ∀ n x, x ∈ (fun s => expandAncestors g s)^[n] {start} → Reaches g start x := by
  intro n
  induction n with
  | zero =>
    intro x hx
    simp at hx
    subst hx
    exact Relation.ReflTransGen.refl
  | succ n ih =>
    intro x hx
    rw [Function.iterate_succ_apply'] at hx
    unfold expandAncestors at hx
    rcases Finset.mem_union.mp hx with h | h
    · exact ih x h
    · obtain ⟨y, hy, hxy⟩ := Finset.mem_biUnion.mp h
      exact Relation.ReflTransGen.tail (ih y hy) (List.mem_toFinset.mp hxy)

theorem reaches_mem_ancestorClosure {g : Store} {start x : Oid}
    (h : Reaches g start x) : x ∈ ancestorClosure g start := by
  induction h with
  | refl =>
    have h0 : start ∈ (fun s => expandAncestors g s)^[0] {start} := by simp
    exact iterAncestors_mono g start (Nat.zero_le _) h0
  | tail hab hbc ih =>
    rw [← ancestorClosure_fixed g start]
    unfold expandAncestors
    refine Finset.mem_union_right _ ?_
    exact Finset.mem_biUnion.mpr ⟨_, ih, List.mem_toFinset.mpr hbc⟩

theorem reaches_contains {g : Store} {a b : Oid}
    (hg : ClosedStore g) (ha : containsOid g a = true) (h : Reaches g a b) :
    containsOid g b = true := by
  induction h with
  | refl => exact ha
  | tail hab hbc ih =>
    rename_i b' c'
    unfold StepRel parentsOf at hbc
    cases hfind : findParents g b' with
    | none => rw [hfind] at hbc; simp at hbc
    | some ps =>
      rw [hfind] at hbc
      exact hg (b', ps) (findParents_mem hfind) _ hbc

theorem mem_ancestorClosure_reaches {g : Store} {start x : Oid}
    (h : x ∈ ancestorClosure g start) : Reaches g start x :=
  mem_iterAncestors_reaches g start _ x h

/-- C9: `is_in_ancestry_path(a, a)` is true for every oid `a`, even one
absent from the object store; if the two oids are distinct and either is
missing from the object store the result is false; if `old` is reachable
through the parent chain of `new` (in a store whose parent links all
resolve) the result is true; and if `old` is not reachable from `new` the
result is false (unrelated commits yield false). -/
theorem c9_ancestry_round_trip :
    (∀ g a, is_in_ancestry_path g a a = true) ∧
    (∀ g a b, a ≠ b → (containsOid g a = false ∨ containsOid g b = false) →
      is_in_ancestry_path g a b = false) ∧
    (∀ g nw old, ClosedStore g → containsOid g nw = true → Reaches g nw old →
      is_in_ancestry_path g nw old = true) ∧
    (∀ g nw old, ¬ Reaches g nw old → is_in_ancestry_path g nw old = false) := by
  refine ⟨?_, ?_, ?_, ?_⟩
  · intro g a
    simp [is_in_ancestry_path]
  · intro g a b hne h
    unfold is_in_ancestry_path
    rw [if_neg hne]
    have hb : (containsOid g a && containsOid g b) = false := by
      rcases h with h | h <;> simp [h]
    rw [hb]
    simp
  · intro g nw old hg hc hr
    unfold is_in_ancestry_path
    by_cases he : nw = old
    · simp [he]
    · rw [if_neg he]
      have hco : containsOid g old = true := reaches_contains hg hc hr
      have hcl : old ∈ ancestorClosure g nw := reaches_mem_ancestorClosure hr
      simp [hc, hco, hcl]
  · intro g nw old hr
    unfold is_in_ancestry_path
    have hne : nw ≠ old := by
      rintro rfl
      exact hr Relation.ReflTransGen.refl
    rw [if_neg hne]
    rcases Bool.eq_false_or_eq_true (containsOid g nw && containsOid g old) with hb | hb
    · rw [hb]
      simp only [Bool.not_true, Bool.false_eq_true, if_false, decide_eq_false_iff_not]
      intro hmem
      exact hr (mem_ancestorClosure_reaches hmem)
    · rw [hb]; simp

/-- Witness for C9: in the store where commit 2 has parent 1, the walk
finds 1 from 2; the reverse direction is unreachable; a store missing an
oid yields false. -/
theorem c9_ancestry_round_trip_witness :
    is_in_ancestry_path [(2, [1]), (1, [])] 2 1 = true ∧
    is_in_ancestry_path [(2, [1]), (1, [])] 1 2 = false ∧
    is_in_ancestry_path [] 1 2 = false :=
  ⟨c9_ancestry_round_trip.2.2.1 [(2, [1]), (1, [])] 2 1 (by decide) (by decide)
      (Relation.ReflTransGen.single (show (1 : Oid) ∈ parentsOf [(2, [1]), (1, [])] 2 by decide)),
   c9_ancestry_round_trip.2.2.2 [(2, [1]), (1, [])] 1 2
      (fun h => absurd (reaches_mem_ancestorClosure h) (by decide)),
   c9_ancestry_round_trip.2.1 [] 1 2 (by decide) (Or.inl (by decide))⟩

/-! ## Reference database (`gix/refdb.rs`)

A reference is either direct (peeled to an object id) or symbolic (points
at another reference name).  `refname_to_id` finds a reference in the
snapshot and peels it: symbolic chains are followed (tag-object peeling is
not modelled, the object store holds commits); a dangling chain is the
`error::Find` case. -/

inductive RefTarget
  | direct (oid : Oid)
  | symbolic (name : String)
deriving DecidableEq, Repr

structure RefdbM where
  refs : List (String × RefTarget)
  odb : Store
deriving DecidableEq, Repr

def findRef : List (String × RefTarget) → String → Option RefTarget
  | [], _ => none
  | (n, t) :: rest, x => if n = x then some t else findRef rest x

def peelRef (db : RefdbM) : Nat → RefTarget → Option Oid
  | _, .direct o => some o
  | 0, .symbolic _ => none
  | fuel + 1, .symbolic n =>
    match findRef db.refs n with
    | none => none
    | some t => peelRef db fuel t

inductive FindError
  | find
deriving DecidableEq, Repr

instance {ε α : Type} [DecidableEq ε] [DecidableEq α] : DecidableEq (Except ε α) := by
  intro x y
  cases x <;> cases y
  case ok.ok a b =>
    exact if h : a = b then .isTrue (by rw [h]) else .isFalse (by intro hc; cases hc; exact h rfl)
  case error.error a b =>
    exact if h : a = b then .isTrue (by rw [h]) else .isFalse (by intro hc; cases hc; exact h rfl)
  all_goals exact .isFalse (by intro hc; cases hc)

/-- `Refdb::refname_to_id`. -/
def refname_to_id (db : RefdbM) (name : String) : Except FindError (Option Oid) :=
  match findRef db.refs name with
  | none => .ok none
  | some t =>
    match peelRef db (db.refs.length + 1) t with
    | some o => .ok (some o)
    | none => .error .find

/-- `Refdb::contains` delegates to the object store. -/
def refdb_contains (db : RefdbM) (o : Oid) : Bool :=
  containsOid db.odb o

/-! ## Refname grammar (`refs.rs`) -/

inductive RefSuffix
  | id
  | sigrefs
  | generic (name : String)
deriving DecidableEq, Repr

/-- The qualified form of a `Special` or generic suffix. -/
def RefSuffix.qualified : RefSuffix → String
  | .id => "refs/rad/id"
  | .sigrefs => "refs/rad/sigrefs"
  | .generic n => n

inductive Refname
  | namespaced (remote : PublicKey) (sfx : RefSuffix)
  | radId
deriving DecidableEq, Repr

/-- `Refname::to_qualified`. -/
def Refname.to_qualified : Refname → String
  | .namespaced pk sfx => nsName pk sfx.qualified
  | .radId => "refs/rad/id"

/-- `ReceivedRef`: a refname and the tip received during an exchange. -/
structure ReceivedRef where
  tip : Oid
  name : Refname
deriving DecidableEq, Repr

/-! ## Wants/haves builder (`transport.rs`, `WantsHavesBuilder`) -/

structure WantsHavesB where
  wants : Finset Oid
  haves : Finset Oid
deriving DecidableEq

def WantsHavesB.empty : WantsHavesB := ⟨∅, ∅⟩

/-- One iteration of `WantsHavesBuilder::add`, for a single received ref:
resolve the name; when it resolves, record the current oid as a have, mark
the received tip as a have when the current oid has the tip in its
ancestry, and want the tip when it differs from the current oid and is not
in the object store; when the name does not resolve, want the tip unless it
is already in the object store. -/
def wants_haves_step (db : RefdbM) (r : ReceivedRef) (b : WantsHavesB) :
    Except FindError WantsHavesB :=
  match refname_to_id db r.name.to_qualified with
  | .error e => .error e
  | .ok (some oid) =>
    .ok { wants := if (oid != r.tip) && !(refdb_contains db r.tip)
                   then insert r.tip b.wants else b.wants
          haves := if is_in_ancestry_path db.odb oid r.tip
                   then insert r.tip (insert oid b.haves) else insert oid b.haves }
  | .ok none =>
    .ok { wants := if !(refdb_contains db r.tip) then insert r.tip b.wants else b.wants
          haves := b.haves }

/-- `WantsHavesBuilder::add`: fold `wants_haves_step` over the received
refs, propagating lookup errors. -/
def wants_haves_add (db : RefdbM) : List ReceivedRef → WantsHavesB → Except FindError WantsHavesB
  | [], b => .ok b
  | r :: rest, b =>
    match wants_haves_step db r b with
    | .error e => .error e
    | .ok b' => wants_haves_add db rest b'

/-- `WantsHavesBuilder::build`: drop haves from wants; `none` when nothing
is left to want. -/
def wants_haves_build (b : WantsHavesB) : Option WantsHavesB :=
  if b.wants.filter (fun o => o ∉ b.haves) = ∅ then none
  else some ⟨b.wants.filter (fun o => o ∉ b.haves), b.haves⟩

theorem wants_haves_step_mono {db : RefdbM} {r : ReceivedRef} {b b' : WantsHavesB}
    (h : wants_haves_step db r b = .ok b') :
    b.wants ⊆ b'.wants ∧ b.haves ⊆ b'.haves := by
  unfold wants_haves_step at h
  rcases hfind : refname_to_id db r.name.to_qualified with e | cur
  · rw [hfind] at h; cases h
  · rw [hfind] at h
    cases cur with
    | none =>
      cases h
      constructor
      · dsimp only
        split_ifs
        · exact Finset.subset_insert _ _
        · exact Finset.Subset.refl _
      · exact Finset.Subset.refl _
    | some oid =>
      cases h
      constructor
      · dsimp only
        split_ifs
        · exact Finset.subset_insert _ _
        · exact Finset.Subset.refl _
      · dsimp only
        split_ifs
        · exact (Finset.subset_insert _ _).trans (Finset.subset_insert _ _)
        · exact Finset.subset_insert _ _

theorem wants_haves_step_wants {db : RefdbM} {r : ReceivedRef} {b b' : WantsHavesB}
    (h : wants_haves_step db r b = .ok b') :
    ∀ o ∈ b'.wants, o ∈ b.wants ∨ (o = r.tip ∧ refdb_contains db o = false) := by
  unfold wants_haves_step at h
  rcases hfind : refname_to_id db r.name.to_qualified with e | cur
  · rw [hfind] at h; cases h
  · rw [hfind] at h
    cases cur with
    | none =>
      cases h
      intro o ho
      dsimp only at ho
      split_ifs at ho with hflag
      · rcases Finset.mem_insert.mp ho with hh | hh
        · subst hh
          exact Or.inr ⟨rfl, by simpa using hflag⟩
        · exact Or.inl hh
      · exact Or.inl ho
    | some oid =>
      cases h
      intro o ho
      dsimp only at ho
      split_ifs at ho with hflag
      · rcases Finset.mem_insert.mp ho with hh | hh
        · subst hh
          have := (Bool.and_eq_true _ _).mp hflag
          exact Or.inr ⟨rfl, by simpa using this.2⟩
        · exact Or.inl hh
      · exact Or.inl ho

theorem wants_haves_step_ancestry_have {db : RefdbM} {r : ReceivedRef} {b b' : WantsHavesB}
    (h : wants_haves_step db r b = .ok b') {cur : Oid}
    (hres : refname_to_id db r.name.to_qualified = .ok (some cur))
    (hanc : is_in_ancestry_path db.odb cur r.tip = true) :
    r.tip ∈ b'.haves := by
  unfold wants_haves_step at h
  rw [hres] at h
  cases h
  dsimp only
  rw [hanc]
  simp

theorem wants_haves_add_mono {db : RefdbM} :
    ∀ {refs : List ReceivedRef} {b b' : WantsHavesB},
      wants_haves_add db refs b = .ok b' →
      b.wants ⊆ b'.wants ∧ b.haves ⊆ b'.haves := by
  intro refs
  induction refs with
  | nil =>
    intro b b' h
    cases h
    exact ⟨Finset.Subset.refl _, Finset.Subset.refl _⟩
  | cons r rest ih =>
    intro b b' h
    unfold wants_haves_add at h
    rcases hstep : wants_haves_step db r b with e | b1
    · rw [hstep] at h; cases h
    · rw [hstep] at h
      have h1 := wants_haves_step_mono hstep
      have h2 := ih h
      exact ⟨h1.1.trans h2.1, h1.2.trans h2.2⟩

theorem wants_haves_add_wants {db : RefdbM} :
    ∀ {refs : List ReceivedRef} {b b' : WantsHavesB},
      wants_haves_add db refs b = .ok b' →
      ∀ o ∈ b'.wants,
        o ∈ b.wants ∨ ((∃ r ∈ refs, r.tip = o) ∧ refdb_contains db o = false) := by
  intro refs
  induction refs with
  | nil =>
    intro b b' h o ho
    cases h
    exact Or.inl ho
  | cons r rest ih =>
    intro b b' h o ho
    unfold wants_haves_add at h
    rcases hstep : wants_haves_step db r b with e | b1
    · rw [hstep] at h; cases h
    · rw [hstep] at h
      rcases ih h o ho with hh | hh
      · rcases wants_haves_step_wants hstep o hh with h1 | h1
        · exact Or.inl h1
        · exact Or.inr ⟨⟨r, List.mem_cons_self _ _, h1.1.symm⟩, h1.2⟩
      · exact Or.inr ⟨⟨hh.1.choose, List.mem_cons_of_mem _ hh.1.choose_spec.1, hh.1.choose_spec.2⟩, hh.2⟩

/-- The ancestry test in the direction the claim states (spec wording): the
current oid is an ancestor of the received tip, i.e. the walk starts at the
received tip and looks for the current oid. -/
def claim_direction_test (db : RefdbM) (cur tip : Oid) : Bool :=
  is_in_ancestry_path db.odb tip cur

def c5db : RefdbM := ⟨[("refs/rad/id", .direct 2)], [(2, [1]), (1, [])]⟩

def c5ref : ReceivedRef := ⟨1, .radId⟩

/-- Counterexample for C5: `refs/rad/id` currently points at commit 2,
whose parent is the received tip 1.  The code marks the received tip as a
have (it tests whether the tip is an ancestor of the current oid), while
the direction stated by the claim — the current oid is an ancestor of the
received tip — is false here.  So the direction of the ancestry test is not
the one the claim states. -/
theorem c5_counterexample :
    (wants_haves_add c5db [c5ref] WantsHavesB.empty).toOption.map
        (fun b => decide (c5ref.tip ∈ b.haves)) = some true ∧
    claim_direction_test c5db 2 c5ref.tip = false ∧
    refname_to_id c5db c5ref.name.to_qualified = .ok (some 2) := by
  decide

/-- C5 amended: for every received ref whose name resolves to a current oid
in the refdb, if the received tip is an ancestor of the current oid (the
current oid has the tip in its parent chain, `is_in_ancestry_path(current,
tip)`), then the received tip is added to the haves set. -/
theorem c5_have_when_tip_is_ancestor :
    ∀ (db : RefdbM) (refs : List ReceivedRef) (b b' : WantsHavesB),
      wants_haves_add db refs b = .ok b' →
      ∀ r ∈ refs, ∀ cur, refname_to_id db r.name.to_qualified = .ok (some cur) →
        is_in_ancestry_path db.odb cur r.tip = true → r.tip ∈ b'.haves := by
  intro db refs
  induction refs with
  | nil =>
    intro b b' _ r hr
    simp at hr
  | cons r0 rest ih =>
    intro b b' h r hr cur hres hanc
    unfold wants_haves_add at h
    rcases hstep : wants_haves_step db r0 b with e | b1
    · rw [hstep] at h; cases h
    · rw [hstep] at h
      rcases List.mem_cons.mp hr with hh | hh
      · subst hh
        exact (wants_haves_add_mono h).2 (wants_haves_step_ancestry_have hstep hres hanc)
      · exact ih b1 b' h r hh cur hres hanc

/-- Witness for C5 (amended): the concrete counterexample input, where the
tip 1 is an ancestor of the current oid 2, ends with 1 in the haves. -/
theorem c5_have_when_tip_is_ancestor_witness :
    (1 : Oid) ∈ (⟨∅, insert 1 (insert 2 ∅)⟩ : WantsHavesB).haves :=
  c5_have_when_tip_is_ancestor c5db [c5ref] WantsHavesB.empty
    ⟨∅, insert 1 (insert 2 ∅)⟩ (by decide) c5ref (by decide) 2 (by decide) (by decide)

/-- C6: the wants computed from a set of received refs are a subset of the
received tips that are not in the object store; the built wants are
disjoint from the haves; and the build result is `none` exactly when the
wants minus the haves are empty. -/
theorem c6_wants_minus_haves :
    (∀ (db : RefdbM) (refs : List ReceivedRef) (b : WantsHavesB),
      wants_haves_add db refs WantsHavesB.empty = .ok b →
      ∀ o ∈ b.wants, (∃ r ∈ refs, r.tip = o) ∧ refdb_contains db o = false) ∧
    (∀ (b wh : WantsHavesB), wants_haves_build b = some wh →
      ∀ o ∈ wh.wants, o ∉ wh.haves) ∧
    (∀ b : WantsHavesB,
      wants_haves_build b = none ↔ b.wants.filter (fun o => o ∉ b.haves) = ∅) := by
  refine ⟨?_, ?_, ?_⟩
  · intro db refs b h o ho
    rcases wants_haves_add_wants h o ho with hh | hh
    · simp [WantsHavesB.empty] at hh
    · exact hh
  · intro b wh h o ho
    unfold wants_haves_build at h
    split at h
    · cases h
    · cases h
      exact (Finset.mem_filter.mp ho).2
  · intro b
    unfold wants_haves_build
    constructor
    · intro h
      split at h
      · assumption
      · cases h
    · intro h
      simp [h]

/-- Witness for C6: a ref received with an unknown name and an absent tip
is wanted, and the build of a builder whose only want is also a have is
`none`. -/
theorem c6_wants_minus_haves_witness :
    ((∃ r ∈ [(⟨5, .radId⟩ : ReceivedRef)], r.tip = 5) ∧
      refdb_contains ⟨[], []⟩ 5 = false) ∧
    (wants_haves_build ⟨{7}, {7}⟩ = none ↔
      ({7} : Finset Oid).filter (fun o => o ∉ ({7} : Finset Oid)) = ∅) :=
  ⟨c6_wants_minus_haves.1 ⟨[], []⟩ [⟨5, .radId⟩] ⟨{5}, ∅⟩ (by decide) 5 (by decide),
   c6_wants_minus_haves.2.2 ⟨{7}, {7}⟩⟩

/-! ## Fetch state bookkeeping (`state.rs`)

`FetchState::step` records, for each received ref, the observed special
tips: a remote `rad/id` or `rad/sigrefs` tip is recorded only when the
computed wants/haves is `Some` and the tip is not among its haves; the
canonical `refs/rad/id` tip is recorded unconditionally.  `Cached::load`
consults the recorded sigrefs tip first and falls back to the context
store. -/

structure SigrefsM where
  at_oid : Oid
  srefs : List (String × Oid)
deriving DecidableEq, Repr

/-- The sigrefs store collaborator (`sigrefs::Store`): `load` infers the
tip from the refdb on disk, `load_at` reads at a given tip. -/
structure SigStore where
  load : PublicKey → Option SigrefsM
  load_at : Oid → PublicKey → Option SigrefsM

structure StateMaps where
  ids : List (PublicKey × Oid)
  sigrefs : List (PublicKey × Oid)
  canonical_rad_id : Option Oid
deriving DecidableEq, Repr

def insertAssoc (k : PublicKey) (v : Oid) : List (PublicKey × Oid) → List (PublicKey × Oid)
  | [] => [(k, v)]
  | (k', v') :: rest => if k' = k then (k, v) :: rest else (k', v') :: insertAssoc k v rest

def lookupAssoc (k : PublicKey) : List (PublicKey × Oid) → Option Oid
  | [] => none
  | (k', v) :: rest => if k' = k then some v else lookupAssoc k rest

/-- The bookkeeping of `FetchState::step` for one received ref. -/
def record_step (wh : Option WantsHavesB) (st : StateMaps) (r : ReceivedRef) : StateMaps :=
  match r.name with
  | .namespaced remote .id =>
    if (wh.map (fun x => !(decide (r.tip ∈ x.haves)))).getD false
    then { st with ids := insertAssoc remote r.tip st.ids }
    else st
  | .namespaced remote .sigrefs =>
    if (wh.map (fun x => !(decide (r.tip ∈ x.haves)))).getD false
    then { st with sigrefs := insertAssoc remote r.tip st.sigrefs }
    else st
  | .namespaced _ (.generic _) => st
  | .radId => { st with canonical_rad_id := some r.tip }

/-- The recording loop of `FetchState::step` over all received refs. -/
def record_observed (wh : Option WantsHavesB) (refs : List ReceivedRef) (st : StateMaps) :
    StateMaps :=
  refs.foldl (record_step wh) st

/-- `Cached::load`: use the observed sigrefs tip when there is one,
otherwise fall back to the store (which infers the tip from disk). -/
def cached_load (st : StateMaps) (ctx : SigStore) (remote : PublicKey) : Option SigrefsM :=
  match lookupAssoc remote st.sigrefs with
  | none => ctx.load remote
  | some tip => ctx.load_at tip remote

theorem lookupAssoc_insertAssoc (k k' : PublicKey) (v : Oid) (m : List (PublicKey × Oid)) :
    lookupAssoc k (insertAssoc k' v m) =
      if k' = k then some v else lookupAssoc k m := by
  induction m with
  | nil => simp [insertAssoc, lookupAssoc]
  | cons kv rest ih =>
    obtain ⟨k0, v0⟩ := kv
    by_cases h0 : k0 = k'
    · subst h0
      by_cases hk : k0 = k
      · subst hk
        simp [insertAssoc, lookupAssoc]
      · simp [insertAssoc, lookupAssoc, hk]
    · simp [insertAssoc, h0, lookupAssoc]
      by_cases hk : k0 = k
      · subst hk
        have : ¬ k' = k0 := fun h => h0 h.symm
        simp [lookupAssoc, this, ih]
      · simp [lookupAssoc, hk, ih]

theorem record_step_none_ids (st : StateMaps) (r : ReceivedRef) :
    (record_step none st r).ids = st.ids ∧ (record_step none st r).sigrefs = st.sigrefs := by
  unfold record_step
  rcases r with ⟨tip, name⟩
  cases name with
  | radId => exact ⟨rfl, rfl⟩
  | namespaced remote sfx =>
    cases sfx <;> simp

theorem record_observed_none (refs : List ReceivedRef) :
    ∀ st : StateMaps,
      (record_observed none refs st).ids = st.ids ∧
      (record_observed none refs st).sigrefs = st.sigrefs := by
  induction refs with
  | nil => intro st; exact ⟨rfl, rfl⟩
  | cons r rest ih =>
    intro st
    have h1 := record_step_none_ids st r
    have h2 := ih (record_step none st r)
    unfold record_observed at h2 ⊢
    simp only [List.foldl_cons]
    exact ⟨h2.1.trans h1.1, h2.2.trans h1.2⟩

theorem record_step_sigrefs {wh : Option WantsHavesB} {st : StateMaps} {r : ReceivedRef}
    {remote : PublicKey} {tip : Oid}
    (h : lookupAssoc remote (record_step wh st r).sigrefs = some tip) :
    lookupAssoc remote st.sigrefs = some tip ∨
      (∃ w, wh = some w ∧ tip ∉ w.haves ∧ r = ⟨tip, .namespaced remote .sigrefs⟩) := by
  unfold record_step at h
  rcases r with ⟨rtip, name⟩
  cases name with
  | radId => exact Or.inl h
  | namespaced rm sfx =>
    cases sfx with
    | id =>
      dsimp only at h
      split_ifs at h
      · exact Or.inl h
      · exact Or.inl h
    | generic n => exact Or.inl h
    | sigrefs =>
      dsimp only at h
      split_ifs at h with hc
      · rw [lookupAssoc_insertAssoc] at h
        by_cases hr : rm = remote
        · subst hr
          rw [if_pos rfl] at h
          cases h
          cases wh with
          | none => simp at hc
          | some w =>
            refine Or.inr ⟨w, rfl, ?_, rfl⟩
            simpa using hc
        · rw [if_neg hr] at h
          exact Or.inl h
      · exact Or.inl h

theorem record_step_ids {wh : Option WantsHavesB} {st : StateMaps} {r : ReceivedRef}
    {remote : PublicKey} {tip : Oid}
    (h : lookupAssoc remote (record_step wh st r).ids = some tip) :
    lookupAssoc remote st.ids = some tip ∨
      (∃ w, wh = some w ∧ tip ∉ w.haves ∧ r = ⟨tip, .namespaced remote .id⟩) := by
  unfold record_step at h
  rcases r with ⟨rtip, name⟩
  cases name with
  | radId => exact Or.inl h
  | namespaced rm sfx =>
    cases sfx with
    | sigrefs =>
      dsimp only at h
      split_ifs at h
      · exact Or.inl h
      · exact Or.inl h
    | generic n => exact Or.inl h
    | id =>
      dsimp only at h
      split_ifs at h with hc
      · rw [lookupAssoc_insertAssoc] at h
        by_cases hr : rm = remote
        · subst hr
          rw [if_pos rfl] at h
          cases h
          cases wh with
          | none => simp at hc
          | some w =>
            refine Or.inr ⟨w, rfl, ?_, rfl⟩
            simpa using hc
        · rw [if_neg hr] at h
          exact Or.inl h
      · exact Or.inl h

theorem record_observed_sigrefs {wh : Option WantsHavesB} {refs : List ReceivedRef} :
    ∀ {st : StateMaps} {remote : PublicKey} {tip : Oid},
      lookupAssoc remote (record_observed wh refs st).sigrefs = some tip →
      lookupAssoc remote st.sigrefs = some tip ∨
        (∃ w, wh = some w ∧ tip ∉ w.haves ∧
          (⟨tip, .namespaced remote .sigrefs⟩ : ReceivedRef) ∈ refs) := by
  induction refs with
  | nil => intro st remote tip h; exact Or.inl h
  | cons r rest ih =>
    intro st remote tip h
    unfold record_observed at h
    simp only [List.foldl_cons] at h
    rcases ih h with hh | hh
    · rcases record_step_sigrefs hh with h1 | h1
      · exact Or.inl h1
      · obtain ⟨w, hw, hm, hr⟩ := h1
        exact Or.inr ⟨w, hw, hm, by rw [← hr]; exact List.mem_cons_self _ _⟩
    · obtain ⟨w, hw, hm, hr⟩ := hh
      exact Or.inr ⟨w, hw, hm, List.mem_cons_of_mem _ hr⟩

theorem record_observed_ids {wh : Option WantsHavesB} {refs : List ReceivedRef} :
    ∀ {st : StateMaps} {remote : PublicKey} {tip : Oid},
      lookupAssoc remote (record_observed wh refs st).ids = some tip →
      lookupAssoc remote st.ids = some tip ∨
        (∃ w, wh = some w ∧ tip ∉ w.haves ∧
          (⟨tip, .namespaced remote .id⟩ : ReceivedRef) ∈ refs) := by
  induction refs with
  | nil => intro st remote tip h; exact Or.inl h
  | cons r rest ih =>
    intro st remote tip h
    unfold record_observed at h
    simp only [List.foldl_cons] at h
    rcases ih h with hh | hh
    · rcases record_step_ids hh with h1 | h1
      · exact Or.inl h1
      · obtain ⟨w, hw, hm, hr⟩ := h1
        exact Or.inr ⟨w, hw, hm, by rw [← hr]; exact List.mem_cons_self _ _⟩
    · obtain ⟨w, hw, hm, hr⟩ := hh
      exact Or.inr ⟨w, hw, hm, List.mem_cons_of_mem _ hr⟩

/-- C10: a remote `rad/id` or `rad/sigrefs` tip is recorded in the fetch
state only when the computed wants/haves is `Some` and the tip is not among
its haves (in particular, when there is nothing to fetch the maps are
unchanged), and when no sigrefs tip is recorded for a remote the cached
sigrefs store falls back to loading from the on-disk tip. -/
theorem c10_record_only_when_fetched :
    (∀ (refs : List ReceivedRef) (st : StateMaps),
      (record_observed none refs st).ids = st.ids ∧
      (record_observed none refs st).sigrefs = st.sigrefs) ∧
    (∀ (wh : Option WantsHavesB) (refs : List ReceivedRef) (st : StateMaps)
        (remote : PublicKey) (tip : Oid),
      lookupAssoc remote (record_observed wh refs st).sigrefs = some tip →
      lookupAssoc remote st.sigrefs = some tip ∨
        (∃ w, wh = some w ∧ tip ∉ w.haves ∧
          (⟨tip, .namespaced remote .sigrefs⟩ : ReceivedRef) ∈ refs)) ∧
    (∀ (wh : Option WantsHavesB) (refs : List ReceivedRef) (st : StateMaps)
        (remote : PublicKey) (tip : Oid),
      lookupAssoc remote (record_observed wh refs st).ids = some tip →
      lookupAssoc remote st.ids = some tip ∨
        (∃ w, wh = some w ∧ tip ∉ w.haves ∧
          (⟨tip, .namespaced remote .id⟩ : ReceivedRef) ∈ refs)) ∧
    (∀ (st : StateMaps) (ctx : SigStore) (remote : PublicKey),
      lookupAssoc remote st.sigrefs = none →
      cached_load st ctx remote = ctx.load remote) := by
  refine ⟨record_observed_none, ?_, ?_, ?_⟩
  · intro wh refs st remote tip h
    exact record_observed_sigrefs h
  · intro wh refs st remote tip h
    exact record_observed_ids h
  · intro st ctx remote h
    unfold cached_load
    rw [h]

/-- Witness for C10: recording a sigrefs tip that was actually fetched
(empty haves) yields the tip via the recorded map, and the empty state
falls back to the on-disk load. -/
theorem c10_record_only_when_fetched_witness :
    (lookupAssoc "PK_A" (⟨[], [], none⟩ : StateMaps).sigrefs = some 3 ∨
      (∃ w, (some (⟨∅, ∅⟩ : WantsHavesB) : Option WantsHavesB) = some w ∧ (3 : Oid) ∉ w.haves ∧
        (⟨3, .namespaced "PK_A" .sigrefs⟩ : ReceivedRef) ∈
          [(⟨3, .namespaced "PK_A" .sigrefs⟩ : ReceivedRef)])) ∧
    cached_load ⟨[], [], none⟩ ⟨fun _ => none, fun _ _ => none⟩ "PK_A" =
      SigStore.load ⟨fun _ => none, fun _ _ => none⟩ "PK_A" :=
  ⟨c10_record_only_when_fetched.2.1 (some ⟨∅, ∅⟩)
      [⟨3, .namespaced "PK_A" .sigrefs⟩] ⟨[], [], none⟩ "PK_A" 3 (by decide),
   c10_record_only_when_fetched.2.2.2 ⟨[], [], none⟩ ⟨fun _ => none, fun _ _ => none⟩ "PK_A" rfl⟩

/-! ## Updates (`gix/refdb/update.rs`) -/

inductive Policy
  /- Abort the entire transaction. -/
  | abort
  /- Reject this update, but continue the transaction. -/
  | reject
  /- Allow the update. -/
  | allow
deriving DecidableEq, Repr

structure SymrefTargetM where
  name : String
  target : Oid
deriving DecidableEq, Repr

inductive UpdateM
  | direct (name : String) (target : Oid) (no_ff : Policy)
  | symbolic (name : String) (target : SymrefTargetM) (type_change : Policy)
  | prune (name : String) (prev : Sum Oid String)
deriving DecidableEq, Repr

/-! ## The identity-tip partition of the exchange driver (`protocol.rs`)

Before committing the first batch, `exchange` walks the queued `tips` with
`swap_remove`, extracting every `Direct` update whose name ends with
`refs/rad/id` and every `Symbolic` update whose symref-target name ends
with `refs/rad/id`.  `swap_remove(i)` moves the last element into slot `i`,
so the loop is modelled with an explicit worklist: the element brought in
by `swap_remove` is re-examined next. -/

def is_rad_id_tip (u : UpdateM) : Bool :=
  match u with
  | .direct name _ _ => strEndsWith name "refs/rad/id"
  | .symbolic _ t _ => strEndsWith t.name "refs/rad/id"
  | .prune _ _ => false

/-- The effect of `swap_remove` on the yet-unvisited tail: the last
element takes the removed slot and is examined next. -/
def rotateLast (l : List UpdateM) : List UpdateM :=
  match l.getLast? with
  | none => []
  | some x => x :: l.dropLast

def partition_loop : Nat → List UpdateM → List UpdateM → List UpdateM →
    List UpdateM × List UpdateM
  | _, tips, checked, [] => (tips, checked)
  | 0, tips, checked, rest => (tips, checked ++ rest)
  | fuel + 1, tips, checked, u :: rest =>
    if is_rad_id_tip u
    then partition_loop fuel (tips ++ [u]) checked (rotateLast rest)
    else partition_loop fuel tips (checked ++ [u]) rest

/-- The while-loop of `exchange` (protocol.rs lines 167-185): the first
component is the batch handed to `Refdb::update`, the second what remains
queued. -/
def partition_rad_id_tips (pending : List UpdateM) : List UpdateM × List UpdateM :=
  partition_loop pending.length [] [] pending

theorem rotateLast_coe (l : List UpdateM) :
    (↑(rotateLast l) : Multiset UpdateM) = ↑l := by
  unfold rotateLast
  cases hl : l.getLast? with
  | none =>
    rw [List.getLast?_eq_none_iff] at hl
    simp [hl]
  | some x =>
    have hx : l.dropLast ++ [x] = l := List.dropLast_append_getLast? x hl
    refine Multiset.coe_eq_coe.mpr ?_
    have h1 : (x :: l.dropLast).Perm (l.dropLast ++ [x]) :=
      (List.perm_append_singleton _ _).symm
    rw [hx] at h1
    exact h1

theorem rotateLast_length_le (l : List UpdateM) :
    (rotateLast l).length ≤ l.length := by
  unfold rotateLast
  cases hl : l.getLast? with
  | none => simp
  | some x =>
    have hne : l ≠ [] := by
      intro h; subst h; simp at hl
    have hpos : 0 < l.length := List.length_pos.mpr hne
    simp only [List.length_cons, List.length_dropLast]
    omega

theorem partition_loop_spec :
    ∀ (fuel : Nat) (tips checked rest : List UpdateM),
      rest.length ≤ fuel →
      (↑(partition_loop fuel tips checked rest).1 : Multiset UpdateM)
          = ↑tips + Multiset.filter (fun u => is_rad_id_tip u = true) ↑rest ∧
      (↑(partition_loop fuel tips checked rest).2 : Multiset UpdateM)
          = ↑checked + Multiset.filter (fun u => is_rad_id_tip u = false) ↑rest := by
  intro fuel
  induction fuel with
  | zero =>
    intro tips checked rest hlen
    have : rest = [] := List.length_eq_zero.mp (Nat.le_zero.mp hlen)
    subst this
    simp [partition_loop]
  | succ fuel ih =>
    intro tips checked rest hlen
    cases rest with
    | nil => simp [partition_loop]
    | cons u rs =>
      simp only [partition_loop]
      cases hu : is_rad_id_tip u with
      | true =>
        rw [if_pos rfl]
        have hlen' : (rotateLast rs).length ≤ fuel := by
          have h1 := rotateLast_length_le rs
          simp only [List.length_cons] at hlen
          omega
        have hrec := ih (tips ++ [u]) checked (rotateLast rs) hlen'
        have hc : (↑(u :: rs) : Multiset UpdateM) = u ::ₘ ↑rs := rfl
        constructor
        · rw [hrec.1, rotateLast_coe, hc,
            Multiset.filter_cons_of_pos _ (by simp [hu]), ← Multiset.coe_add,
            Multiset.coe_singleton, add_assoc, Multiset.singleton_add]
        · rw [hrec.2, rotateLast_coe, hc,
            Multiset.filter_cons_of_neg _ (by simp [hu])]
      | false =>
        rw [if_neg (by simp)]
        have hlen' : rs.length ≤ fuel := by
          simp only [List.length_cons] at hlen
          omega
        have hrec := ih tips (checked ++ [u]) rs hlen'
        have hc : (↑(u :: rs) : Multiset UpdateM) = u ::ₘ ↑rs := rfl
        constructor
        · rw [hrec.1, hc, Multiset.filter_cons_of_neg _ (by simp [hu])]
        · rw [hrec.2, hc, Multiset.filter_cons_of_pos _ (by simp [hu]),
            ← Multiset.coe_add, Multiset.coe_singleton, add_assoc,
            Multiset.singleton_add]

theorem strEndsWith_false_of_getLast {s post : String} {c c' : Char}
    (hs : s.data.getLast? = some c) (hp : post.data.getLast? = some c')
    (hne : c ≠ c') : strEndsWith s post = false := by
  rcases Bool.eq_false_or_eq_true (strEndsWith s post) with hb | hb
  swap
  · exact hb
  · exfalso
    have hsuf : post.data <:+ s.data := List.isSuffixOf_iff_suffix.mp hb
    obtain ⟨t, ht⟩ := hsuf
    have hpne : post.data ≠ [] := by
      intro h
      rw [h] at hp
      simp at hp
    have : s.data.getLast? = post.data.getLast? := by
      rw [← ht]
      exact List.getLast?_append_of_ne_nil t hpne
    rw [hs, hp] at this
    cases this
    exact hne rfl

theorem nsName_sigrefs_not_rad_id (pk : String) :
    strEndsWith (nsName pk "refs/rad/sigrefs") "refs/rad/id" = false := by
  have hs : (nsName pk "refs/rad/sigrefs").data.getLast? = some 's' := by
    show (("refs/namespaces/" ++ pk ++ "/") ++ "refs/rad/sigrefs").data.getLast? = some 's'
    rw [String.data_append]
    rw [List.getLast?_append_of_ne_nil _ (by decide)]
    decide
  have hp : ("refs/rad/id" : String).data.getLast? = some 'd' := by decide
  exact strEndsWith_false_of_getLast hs hp (by decide)

def c1sig : UpdateM := .direct (nsName "PK_A" "refs/rad/sigrefs") 1 .abort

/-- Counterexample for C1: a queued `Direct` update for the remote
`rad/sigrefs` name is claimed to be part of the first committed batch, but
the partition extracts nothing from it — the `rad/sigrefs` update stays in
the pending queue for the data round. -/
theorem c1_counterexample :
    strEndsWith (nsName "PK_A" "refs/rad/sigrefs") "refs/rad/sigrefs" = true ∧
    (partition_rad_id_tips [c1sig]).1 = [] ∧
    (partition_rad_id_tips [c1sig]).2 = [c1sig] := by
  decide

/-- C1 amended: the batch committed after the verification-refs step
consists of exactly those queued tips that are `Direct` updates whose
refname ends with `refs/rad/id`, or `Symbolic` updates whose symref-target
name ends with `refs/rad/id` (as multisets: order is shuffled by
`swap_remove`); queued `rad/sigrefs` updates are not in this batch — they
remain queued and are committed with the data batch. -/
theorem c1_identity_tip_partition :
    ∀ pending : List UpdateM,
      (↑(partition_rad_id_tips pending).1 : Multiset UpdateM)
          = Multiset.filter (fun u => is_rad_id_tip u = true) ↑pending ∧
      (↑(partition_rad_id_tips pending).2 : Multiset UpdateM)
          = Multiset.filter (fun u => is_rad_id_tip u = false) ↑pending ∧
      (∀ (pk : String) (tip : Oid) (p : Policy),
        is_rad_id_tip (.direct (nsName pk "refs/rad/sigrefs") tip p) = false) := by
  intro pending
  have h := partition_loop_spec pending.length [] [] pending (Nat.le_refl _)
  refine ⟨?_, ?_, ?_⟩
  · have := h.1
    simpa [partition_rad_id_tips] using this
  · have := h.2
    simpa [partition_rad_id_tips] using this
  · intro pk tip p
    show strEndsWith (nsName pk "refs/rad/sigrefs") "refs/rad/id" = false
    exact nsName_sigrefs_not_rad_id pk

/-! ## Layout validation (`stage.rs`, `ensure_refs` and `Clone::pre_validate`) -/

inductive LayoutError
  | missingRequiredRefs (missing : Finset String)
deriving DecidableEq

/-- `ensure_refs`: an empty received set short-circuits to `Ok` before the
required set is consulted. -/
def ensure_refs (required wants : Finset String) : Except LayoutError Unit :=
  if wants = ∅ then .ok ()
  else if required \ wants = ∅ then .ok ()
  else .error (.missingRequiredRefs (required \ wants))

/-- `Clone::pre_validate`: requires the canonical `refs/rad/id` among the
received refs. -/
def clone_pre_validate (refs : List ReceivedRef) : Except LayoutError Unit :=
  ensure_refs {"refs/rad/id"} (refs.map (fun r => r.name.to_qualified)).toFinset

/-- C3: on the empty received ref set, `Clone::pre_validate` returns `Ok`
even though `refs/rad/id` is not among the received refs, because
`ensure_refs` short-circuits when the received set is empty; the canonical
`rad/id` is then still unrecorded, so the `expect` in `Clone::prepare`
(\"ensured we got canonical rad/id ref\") is reachable and panics. -/
theorem c3_empty_advertisement_bug :
    clone_pre_validate [] = .ok () ∧
    (∀ r ∈ ([] : List ReceivedRef), r.name.to_qualified ≠ "refs/rad/id") ∧
    (record_observed none [] ⟨[], [], none⟩).canonical_rad_id = none ∧
    ensure_refs {"refs/rad/id"} ∅ = .ok () := by
  refine ⟨by decide, by simp, rfl, by decide⟩

/-! ## In-memory staging refdb scan (`gix/refdb/mem.rs`)

The staging refdb is a `HashMap`; `InMemory::scan` captures the map
iterator together with the optional prefix.  We model the map by its
iteration sequence (a list of entries — `HashMap` iteration order is not a
function of the map contents).  `Scan::next` pulls the next entry and, when
a prefix is given and the entry does not match, returns `None`, which ends
the iteration. -/

def mem_scan (pfx : Option String) : List (String × Oid) → List (String × Oid)
  | [] => []
  | (n, o) :: rest =>
    match pfx with
    | none => (n, o) :: mem_scan none rest
    | some p => if strStartsWith n p then (n, o) :: mem_scan (some p) rest else []

/-- Counterexample for C4: with contents `{refs/a ↦ 1, refs/b ↦ 2}` and
prefix `refs/b`, the scan stops at the non-matching first entry and yields
nothing, although a matching entry exists; on the permuted iteration order
of the same contents it yields the entry — so the scan neither yields
exactly the matching set nor is it determined by the map contents. -/
theorem c4_counterexample :
    mem_scan (some "refs/b") [("refs/a", 1), ("refs/b", 2)] = [] ∧
    strStartsWith "refs/b" "refs/b" = true ∧
    ([("refs/a", 1), ("refs/b", 2)] : List (String × Oid)).Perm
      [("refs/b", 2), ("refs/a", 1)] ∧
    mem_scan (some "refs/b") [("refs/b", 2), ("refs/a", 1)] = [("refs/b", 2)] := by
  refine ⟨by decide, by decide, ?_, by decide⟩
  exact List.Perm.swap _ _ _

/-- C4 amended: `scan(prefix)` yields the maximal initial run of entries of
the iteration sequence whose names start with the prefix — it terminates
at, rather than skips, the first non-matching entry; every yielded entry
matches and occurs in the sequence; without a prefix every entry is
yielded.  The output is a function of the iteration sequence, not of the
map contents alone. -/
theorem c4_mem_scan_initial_run :
    ∀ (p : String) (l : List (String × Oid)),
      mem_scan (some p) l = l.takeWhile (fun e => strStartsWith e.1 p) ∧
      mem_scan none l = l ∧
      (∀ e ∈ mem_scan (some p) l, strStartsWith e.1 p = true ∧ e ∈ l) := by
  intro p l
  induction l with
  | nil => exact ⟨rfl, rfl, by simp [mem_scan]⟩
  | cons e rest ih =>
    obtain ⟨n, o⟩ := e
    refine ⟨?_, ?_, ?_⟩
    · simp only [mem_scan, List.takeWhile]
      cases hs : strStartsWith n p with
      | true => simp [hs, ih.1]
      | false => simp [hs]
    · simp only [mem_scan, ih.2.1]
    · intro e' he'
      simp only [mem_scan] at he'
      cases hs : strStartsWith n p with
      | false =>
        rw [hs] at he'
        simp at he'
      | true =>
        rw [hs] at he'
        simp only [if_true] at he'
        rcases List.mem_cons.mp he' with hh | hh
        · subst hh
          exact ⟨hs, List.mem_cons_self _ _⟩
        · obtain ⟨h1, h2⟩ := ih.2.2 e' hh
          exact ⟨h1, List.mem_cons_of_mem _ h2⟩

/-! ## Verification refs (`stage.rs`, `verification_refs` / `SpecialRefs`)

`verification_refs` groups the received refs by remote (keeping those the
`AsClone` policy keeps) and, per remote, verifies the `rad/id` tip and
collects the pair of special-ref updates.  The per-remote accumulator
(`tips_inner`, a map keyed by the one remote of the group) is modelled as
an `Option` of the `SpecialRefs` pair.  The outer `BTreeMap` grouping is
modelled by the deduplicated key list together with the per-key sublists;
the claims are insensitive to the key iteration order. -/

inductive AsCloneM
  | localKey (pk : PublicKey)
  | keep
deriving DecidableEq, Repr

/-- `AsClone::should_keep`. -/
def AsCloneM.should_keep : AsCloneM → PublicKey → Bool
  | .localKey l, k => l != k
  | .keep, _ => true

/-- `RemoteRef::as_verification_ref_update`: a `Direct` update with
`no_ff = Abort` for either special ref, `None` for a generic suffix. -/
def as_verification_ref_update (remote : PublicKey) (sp : RefSuffix) (tip : Oid) :
    Option UpdateM :=
  match sp with
  | .id => some (.direct (nsName remote "refs/rad/id") tip .abort)
  | .sigrefs => some (.direct (nsName remote "refs/rad/sigrefs") tip .abort)
  | .generic _ => none

inductive PrepError
  | scanErr
  | verification (remote : PublicKey)
deriving DecidableEq, Repr

/-- The grouping keys of `verification_refs` (the grouped `BTreeMap`). -/
def group_keys (localId : AsCloneM) (refs : List ReceivedRef) : List PublicKey :=
  (refs.filterMap (fun r =>
    match r.name with
    | .namespaced remote _ =>
      if localId.should_keep remote then some remote else none
    | .radId => none)).dedup

/-- The per-remote group of `(tip, suffix)` pairs, in received order. -/
def group_refs (localId : AsCloneM) (refs : List ReceivedRef) (pk : PublicKey) :
    List (Oid × RefSuffix) :=
  refs.filterMap (fun r =>
    match r.name with
    | .namespaced remote sfx =>
      if remote = pk ∧ localId.should_keep remote then some (r.tip, sfx) else none
    | .radId => none)

structure SpecialRefsM (T : Type) where
  id : T
  sigrefs : T
deriving DecidableEq, Repr

/-- `SpecialRefs::verify`: `Some` only when both refs were recorded. -/
def SpecialRefsM.verify (sr : SpecialRefsM (Option UpdateM)) :
    Option (SpecialRefsM UpdateM) :=
  sr.id.bind fun i => sr.sigrefs.map fun s => ⟨i, s⟩

/-- `SpecialRefs::unpack`. -/
def SpecialRefsM.unpack (sr : SpecialRefsM UpdateM) : List UpdateM :=
  [sr.id, sr.sigrefs]

/-- The inner loop of `verification_refs` over one remote's refs: a failed
`rad/id` verification aborts for a delegate and clears-and-breaks for a
non-delegate; successful specials are recorded into the pair. -/
def process_remote_refs (verify : Oid → Bool) (is_del : Bool) (pk : PublicKey) :
    List (Oid × RefSuffix) → Option (SpecialRefsM (Option UpdateM)) →
    Except PrepError (Option (SpecialRefsM (Option UpdateM)))
  | [], acc => .ok acc
  | (tip, sfx) :: rest, acc =>
    match sfx with
    | .id =>
      if verify tip then
        match as_verification_ref_update pk .id tip with
        | some u =>
          process_remote_refs verify is_del pk rest
            (some (match acc with
              | some sr => { sr with id := some u }
              | none => ⟨some u, none⟩))
        | none => process_remote_refs verify is_del pk rest acc
      else if is_del then .error (.verification pk)
      else .ok none
    | .sigrefs =>
      match as_verification_ref_update pk .sigrefs tip with
      | some u =>
        process_remote_refs verify is_del pk rest
          (some (match acc with
            | some sr => { sr with sigrefs := some u }
            | none => ⟨none, some u⟩))
      | none => process_remote_refs verify is_del pk rest acc
    | .generic _ => process_remote_refs verify is_del pk rest acc

/-- One remote's contribution: `verify` the pair and unpack it. -/
def remote_contribution (verify : Oid → Bool) (is_del : Bool) (pk : PublicKey)
    (lst : List (Oid × RefSuffix)) : Except PrepError (List UpdateM) :=
  (process_remote_refs verify is_del pk lst none).map fun acc =>
    match acc with
    | none => []
    | some sr =>
      match sr.verify with
      | none => []
      | some sr' => sr'.unpack

def verification_refs_loop (verify : Oid → Bool) (is_delegate : PublicKey → Bool)
    (localId : AsCloneM) (refs : List ReceivedRef) :
    List PublicKey → Except PrepError (List UpdateM)
  | [] => .ok []
  | pk :: rest =>
    match remote_contribution verify (is_delegate pk) pk (group_refs localId refs pk) with
    | .error e => .error e
    | .ok tips =>
      match verification_refs_loop verify is_delegate localId refs rest with
      | .error e => .error e
      | .ok acc => .ok (tips ++ acc)

/-- `verification_refs`. -/
def verification_refs (localId : AsCloneM) (verify : Oid → Bool)
    (is_delegate : PublicKey → Bool) (refs : List ReceivedRef) :
    Except PrepError (List UpdateM) :=
  verification_refs_loop verify is_delegate localId refs (group_keys localId refs)

/-- An update counts for remote `pk` when its name is `pk`'s `rad/id` or
`rad/sigrefs` name. -/
def is_ver_update_for (pk : PublicKey) (u : UpdateM) : Bool :=
  match u with
  | .direct n _ _ => (n == nsName pk "refs/rad/id") || (n == nsName pk "refs/rad/sigrefs")
  | _ => false

theorem nsName_pk_inj {a b s : String} (h : nsName a s = nsName b s) : a = b := by
  have hd := congrArg String.data h
  simp only [nsName, String.data_append, List.append_assoc] at hd
  have hd2 := List.append_cancel_left hd
  have hlen : a.data.length = b.data.length := by
    have hl := congrArg List.length hd2
    simp only [List.length_append] at hl
    omega
  exact String.ext (List.append_inj hd2 hlen).1

theorem nsName_id_ne_sigrefs (a b : String) :
    nsName a "refs/rad/id" ≠ nsName b "refs/rad/sigrefs" := by
  intro h
  have hd := congrArg String.data h
  simp only [nsName, String.data_append] at hd
  have h1 : ((("refs/namespaces/".data ++ a.data) ++ "/".data) ++
      "refs/rad/id".data).getLast? = some 'd' := by
    rw [List.getLast?_append_of_ne_nil _ (by decide)]
    decide
  have h2 : ((("refs/namespaces/".data ++ b.data) ++ "/".data) ++
      "refs/rad/sigrefs".data).getLast? = some 's' := by
    rw [List.getLast?_append_of_ne_nil _ (by decide)]
    decide
  rw [hd, h2] at h1
  cases h1

/-- Well-formedness of the per-remote accumulator: a recorded `id` update
is `pk`'s `rad/id` update, a recorded `sigrefs` update is `pk`'s
`rad/sigrefs` update. -/
def acc_wf (pk : PublicKey) : Option (SpecialRefsM (Option UpdateM)) → Prop
  | none => True
  | some sr =>
      (∀ u, sr.id = some u → ∃ t, u = .direct (nsName pk "refs/rad/id") t .abort) ∧
      (∀ u, sr.sigrefs = some u → ∃ t, u = .direct (nsName pk "refs/rad/sigrefs") t .abort)

theorem acc_wf_none (pk : PublicKey) : acc_wf pk none := trivial

theorem process_remote_refs_wf {verify : Oid → Bool} {is_del : Bool} {pk : PublicKey} :
    ∀ {lst : List (Oid × RefSuffix)} {acc acc' : Option (SpecialRefsM (Option UpdateM))},
      acc_wf pk acc → process_remote_refs verify is_del pk lst acc = .ok acc' →
      acc_wf pk acc' := by
  intro lst
  induction lst with
  | nil =>
    intro acc acc' hwf h
    cases h
    exact hwf
  | cons e rest ih =>
    intro acc acc' hwf h
    obtain ⟨tip, sfx⟩ := e
    cases sfx with
    | id =>
      simp only [process_remote_refs, as_verification_ref_update] at h
      cases hv : verify tip with
      | true =>
        rw [hv] at h
        simp only [if_true] at h
        refine ih ?_ h
        cases acc with
        | none =>
          exact ⟨fun u hu => ⟨tip, by cases hu; rfl⟩, fun u hu => Option.noConfusion hu⟩
        | some sr =>
          exact ⟨fun u hu => ⟨tip, by cases hu; rfl⟩, fun u hu => hwf.2 u hu⟩
      | false =>
        rw [hv] at h
        simp only [Bool.false_eq_true, if_false] at h
        cases is_del with
        | true => simp at h
        | false =>
          simp only [Bool.false_eq_true, if_false] at h
          cases h
          trivial
    | sigrefs =>
      simp only [process_remote_refs, as_verification_ref_update] at h
      refine ih ?_ h
      cases acc with
      | none =>
        exact ⟨fun u hu => Option.noConfusion hu, fun u hu => ⟨tip, by cases hu; rfl⟩⟩
      | some sr =>
        exact ⟨fun u hu => hwf.1 u hu, fun u hu => ⟨tip, by cases hu; rfl⟩⟩
    | generic n =>
      simp only [process_remote_refs] at h
      exact ih hwf h

theorem remote_contribution_shape {verify : Oid → Bool} {is_del : Bool} {pk : PublicKey}
    {lst : List (Oid × RefSuffix)} {out : List UpdateM}
    (h : remote_contribution verify is_del pk lst = .ok out) :
    out = [] ∨ ∃ t₁ t₂, out = [.direct (nsName pk "refs/rad/id") t₁ .abort,
                               .direct (nsName pk "refs/rad/sigrefs") t₂ .abort] := by
  unfold remote_contribution at h
  cases hp : process_remote_refs verify is_del pk lst none with
  | error e => rw [hp] at h; cases h
  | ok acc =>
    rw [hp] at h
    simp only [Except.map] at h
    cases h
    have hwf := process_remote_refs_wf (acc_wf_none pk) hp
    cases acc with
    | none => exact Or.inl rfl
    | some sr =>
      obtain ⟨hid, hsig⟩ := hwf
      cases hi : sr.id with
      | none => simp [SpecialRefsM.verify, hi]
      | some i =>
        cases hs : sr.sigrefs with
        | none => simp [SpecialRefsM.verify, hi, hs]
        | some s =>
          obtain ⟨t₁, ht₁⟩ := hid i hi
          obtain ⟨t₂, ht₂⟩ := hsig s hs
          refine Or.inr ⟨t₁, t₂, ?_⟩
          simp [SpecialRefsM.verify, hi, hs, SpecialRefsM.unpack, ht₁, ht₂]

theorem filter_contribution_self {pk : PublicKey} {out : List UpdateM}
    (hshape : out = [] ∨ ∃ t₁ t₂, out = [.direct (nsName pk "refs/rad/id") t₁ .abort,
                                         .direct (nsName pk "refs/rad/sigrefs") t₂ .abort]) :
    out.filter (is_ver_update_for pk) = out := by
  rcases hshape with h | ⟨t₁, t₂, h⟩ <;> subst h
  · rfl
  · simp [is_ver_update_for, List.filter]

theorem filter_contribution_other {pk pk' : PublicKey} {out : List UpdateM}
    (hne : pk' ≠ pk)
    (hshape : out = [] ∨ ∃ t₁ t₂, out = [.direct (nsName pk "refs/rad/id") t₁ .abort,
                                         .direct (nsName pk "refs/rad/sigrefs") t₂ .abort]) :
    out.filter (is_ver_update_for pk') = [] := by
  rcases hshape with h | ⟨t₁, t₂, h⟩ <;> subst h
  · rfl
  · have h1 : nsName pk "refs/rad/id" ≠ nsName pk' "refs/rad/id" := by
      intro hh
      exact hne (nsName_pk_inj hh).symm
    have h2 : nsName pk "refs/rad/id" ≠ nsName pk' "refs/rad/sigrefs" :=
      nsName_id_ne_sigrefs pk pk'
    have h3 : nsName pk "refs/rad/sigrefs" ≠ nsName pk' "refs/rad/id" :=
      fun hh => nsName_id_ne_sigrefs pk' pk hh.symm
    have h4 : nsName pk "refs/rad/sigrefs" ≠ nsName pk' "refs/rad/sigrefs" := by
      intro hh
      exact hne (nsName_pk_inj hh).symm
    have hb1 := beq_eq_false_iff_ne.mpr h1
    have hb2 := beq_eq_false_iff_ne.mpr h2
    have hb3 := beq_eq_false_iff_ne.mpr h3
    have hb4 := beq_eq_false_iff_ne.mpr h4
    simp [is_ver_update_for, List.filter, hb1, hb2, hb3, hb4]

theorem verification_refs_loop_filter_not_mem
    {verify : Oid → Bool} {is_delegate : PublicKey → Bool} {localId : AsCloneM}
    {refs : List ReceivedRef} :
    ∀ {keys : List PublicKey} {out : List UpdateM} {pk : PublicKey}, pk ∉ keys →
      verification_refs_loop verify is_delegate localId refs keys = .ok out →
      out.filter (is_ver_update_for pk) = [] := by
  intro keys
  induction keys with
  | nil =>
    intro out pk _ h
    cases h
    rfl
  | cons k rest ih =>
    intro out pk hnm h
    simp only [verification_refs_loop] at h
    cases hc : remote_contribution verify (is_delegate k) k (group_refs localId refs k) with
    | error e => rw [hc] at h; cases h
    | ok tips =>
      rw [hc] at h
      cases hl : verification_refs_loop verify is_delegate localId refs rest with
      | error e => rw [hl] at h; cases h
      | ok acc =>
        rw [hl] at h
        cases h
        rw [List.filter_append]
        have hne : pk ≠ k := fun hh => hnm (hh ▸ List.mem_cons_self _ _)
        rw [filter_contribution_other hne (remote_contribution_shape hc),
          ih (fun hh => hnm (List.mem_cons_of_mem _ hh)) hl]
        rfl

theorem verification_refs_loop_filter
    {verify : Oid → Bool} {is_delegate : PublicKey → Bool} {localId : AsCloneM}
    {refs : List ReceivedRef} :
    ∀ {keys : List PublicKey} {out : List UpdateM}, keys.Nodup →
      verification_refs_loop verify is_delegate localId refs keys = .ok out →
      ∀ pk, out.filter (is_ver_update_for pk) = [] ∨
        ∃ t₁ t₂, out.filter (is_ver_update_for pk)
          = [.direct (nsName pk "refs/rad/id") t₁ .abort,
             .direct (nsName pk "refs/rad/sigrefs") t₂ .abort] := by
  intro keys
  induction keys with
  | nil =>
    intro out _ h pk
    cases h
    exact Or.inl rfl
  | cons k rest ih =>
    intro out hnd h pk
    simp only [verification_refs_loop] at h
    cases hc : remote_contribution verify (is_delegate k) k (group_refs localId refs k) with
    | error e => rw [hc] at h; cases h
    | ok tips =>
      rw [hc] at h
      cases hl : verification_refs_loop verify is_delegate localId refs rest with
      | error e => rw [hl] at h; cases h
      | ok acc =>
        rw [hl] at h
        cases h
        rw [List.filter_append]
        have hnd' := List.nodup_cons.mp hnd
        by_cases hpk : pk = k
        · subst hpk
          rw [filter_contribution_self (remote_contribution_shape hc),
            verification_refs_loop_filter_not_mem hnd'.1 hl, List.append_nil]
          exact remote_contribution_shape hc
        · rw [filter_contribution_other hpk (remote_contribution_shape hc),
            List.nil_append]
          exact ih hnd'.2 hl pk

/-- C8: for every input to the verification-refs preparation (any received
refs, any keep policy, any delegate predicate, any identity-verification
outcomes), each remote contributes either exactly 0 or exactly 2
verification-ref updates to the returned list — one for its `rad/id` name
and one for its `rad/sigrefs` name — never exactly 1. -/
theorem c8_zero_or_two_per_remote :
    ∀ (localId : AsCloneM) (verify : Oid → Bool) (is_delegate : PublicKey → Bool)
      (refs : List ReceivedRef) (out : List UpdateM),
      verification_refs localId verify is_delegate refs = .ok out →
      ∀ pk, out.filter (is_ver_update_for pk) = [] ∨
        ∃ t₁ t₂, out.filter (is_ver_update_for pk)
          = [.direct (nsName pk "refs/rad/id") t₁ .abort,
             .direct (nsName pk "refs/rad/sigrefs") t₂ .abort] := by
  intro localId verify is_delegate refs out h pk
  exact verification_refs_loop_filter (List.nodup_dedup _) h pk

/-- Witness for C8: one remote with both specials received and a passing
verification contributes exactly its `rad/id` and `rad/sigrefs` pair. -/
theorem c8_zero_or_two_per_remote_witness :
    ([(.direct (nsName "PK_A" "refs/rad/id") 1 .abort : UpdateM),
      .direct (nsName "PK_A" "refs/rad/sigrefs") 2 .abort].filter
        (is_ver_update_for "PK_A") = [] ∨
     ∃ t₁ t₂, [(.direct (nsName "PK_A" "refs/rad/id") 1 .abort : UpdateM),
        .direct (nsName "PK_A" "refs/rad/sigrefs") 2 .abort].filter
          (is_ver_update_for "PK_A")
        = [.direct (nsName "PK_A" "refs/rad/id") t₁ .abort,
           .direct (nsName "PK_A" "refs/rad/sigrefs") t₂ .abort]) :=
  c8_zero_or_two_per_remote .keep (fun _ => true) (fun _ => true)
    [⟨1, .namespaced "PK_A" .id⟩, ⟨2, .namespaced "PK_A" .sigrefs⟩]
    [.direct (nsName "PK_A" "refs/rad/id") 1 .abort,
     .direct (nsName "PK_A" "refs/rad/sigrefs") 2 .abort]
    (by decide) "PK_A"

/-! ## Data-refs preparation (`stage.rs`, `Refs::prepare`)

For every `(remote, sigrefs)` in the trusted manifests: queue a `Direct`
update with `no_ff = Allow` for every signed `(refname, tip)`, then scan
the refdb under `refs/namespaces/<remote>` and queue a `Prune` for every
known namespaced ref that does not start with the string
`refs/namespaces/<remote>/refs/rad` (note: no trailing slash — the Rust
code uses byte-wise `starts_with` on `prefix_rad`) and is not in the
signed set.  The refdb scan is a byte-prefix filter; reference names are
parsed into namespaced form component-wise (`Qualified::to_namespaced`). -/

/-- `Refdb::scan` with a prefix: the byte-prefix filtered entries. -/
def refdb_scan (db : RefdbM) (pfx : String) : List (String × RefTarget) :=
  db.refs.filter (fun e => strStartsWith e.1 pfx)

def RefTarget.toPrev : RefTarget → Sum Oid String
  | .direct o => .inl o
  | .symbolic n => .inr n

def splitSlashAux : List Char → List Char → List (List Char)
  | [], acc => [acc.reverse]
  | c :: rest, acc =>
    if c = '/' then acc.reverse :: splitSlashAux rest []
    else splitSlashAux rest (c :: acc)

/-- The `/`-separated components of a refname. -/
def components (s : String) : List String :=
  (splitSlashAux s.data []).map String.mk

/-- `Qualified::to_namespaced`: the name must read
`refs/namespaces/<ns>/<qualified>` where the remainder is itself a
qualified name (at least three components beginning with `refs`). -/
def to_namespaced (n : String) : Option String :=
  match components n with
  | "refs" :: "namespaces" :: _ns :: rest =>
    if rest.length ≥ 3 ∧ rest.head? = some "refs" then some n else none
  | _ => none

/-- The signed set of one remote, as namespaced names (`signed` in
`Refs::prepare`). -/
def sig_signed_names (remote : PublicKey) (srefs : SigrefsM) : List String :=
  srefs.srefs.map (fun e => nsName remote e.1)

/-- `Refs::prepare` for one remote: the signed `Direct{Allow}` updates
followed by the prunes of unsigned known refs outside the `rad`
hierarchy. -/
def refs_prepare_remote (db : RefdbM) (remote : PublicKey) (srefs : SigrefsM) :
    List UpdateM :=
  (srefs.srefs.map (fun e => UpdateM.direct (nsName remote e.1) e.2 .allow)) ++
  ((refdb_scan db ("refs/namespaces/" ++ remote)).filterMap (fun e =>
    match to_namespaced e.1 with
    | none => none
    | some ns =>
      if strStartsWith ns ("refs/namespaces/" ++ remote ++ "/refs/rad") then none
      else if ns ∈ sig_signed_names remote srefs then none
      else some (UpdateM.prune ns e.2.toPrev)))

/-- `Refs::prepare` over all trusted remotes. -/
def refs_prepare (db : RefdbM) (trusted : List (PublicKey × SigrefsM)) : List UpdateM :=
  (trusted.map (fun e => refs_prepare_remote db e.1 e.2)).flatten

/-- Counterexample for C7: the known ref
`refs/namespaces/PK_A/refs/radx/y` is namespaced under the trusted remote
`PK_A`, absent from the signed set, and not under the
`refs/namespaces/PK_A/refs/rad/` hierarchy, so the claim requires it to be
pruned; but the code compares against the string
`refs/namespaces/PK_A/refs/rad` without a trailing slash, the name matches
that string prefix, and no prune is produced. -/
theorem c7_counterexample :
    refs_prepare ⟨[("refs/namespaces/PK_A/refs/radx/y", .direct 5)], []⟩
        [("PK_A", ⟨9, []⟩)] = [] ∧
    to_namespaced "refs/namespaces/PK_A/refs/radx/y"
        = some "refs/namespaces/PK_A/refs/radx/y" ∧
    strStartsWith "refs/namespaces/PK_A/refs/radx/y"
        "refs/namespaces/PK_A/refs/rad/" = false ∧
    strStartsWith "refs/namespaces/PK_A/refs/radx/y" "refs/namespaces/PK_A" = true ∧
    "refs/namespaces/PK_A/refs/radx/y" ∉ sig_signed_names "PK_A" ⟨9, []⟩ := by
  decide

theorem to_namespaced_eq {x n : String} (h : to_namespaced x = some n) : n = x := by
  unfold to_namespaced at h
  split at h
  · split_ifs at h
    exact (Option.some_inj.mp h).symm
  · cases h

theorem strStartsWith_iff {s p : String} : strStartsWith s p = true ↔ p.data <+: s.data :=
  List.isPrefixOf_iff_prefix

theorem prefix_extend (x r : List Char) : x <+: x ++ r := ⟨r, rfl⟩

theorem eq_of_slashfree_bounded :
    ∀ {a b r : List Char}, '/' ∉ a → '/' ∉ b →
      (a ++ ['/']) <+: (b ++ '/' :: r) → a = b := by
  intro a
  induction a with
  | nil =>
    intro b r _ hb h
    cases b with
    | nil => rfl
    | cons c bs =>
      rw [List.nil_append, List.cons_append] at h
      obtain ⟨hc, _⟩ := List.cons_prefix_cons.mp h
      exfalso
      refine hb ?_
      rw [← hc]
      exact List.mem_cons_self _ _
  | cons c as ih =>
    intro b r ha hb h
    cases b with
    | nil =>
      rw [List.cons_append, List.nil_append] at h
      obtain ⟨hc, _⟩ := List.cons_prefix_cons.mp h
      exfalso
      refine ha ?_
      rw [hc]
      exact List.mem_cons_self _ _
    | cons d bs =>
      rw [List.cons_append, List.cons_append] at h
      obtain ⟨hcd, htail⟩ := List.cons_prefix_cons.mp h
      have ha' : '/' ∉ as := fun hm => ha (List.mem_cons_of_mem _ hm)
      have hb' : '/' ∉ bs := fun hm => hb (List.mem_cons_of_mem _ hm)
      rw [hcd, ih ha' hb' htail]

theorem prefix_cancel_left {pre x n : List Char} (h : pre ++ x <+: n) :
    ∃ m, n = pre ++ m ∧ x <+: m := by
  obtain ⟨t, ht⟩ := h
  refine ⟨x ++ t, ?_, prefix_extend x t⟩
  rw [← ht]
  simp

theorem shared_key_eq {k pk m : List Char}
    (hk : '/' ∉ k) (hpk : '/' ∉ pk)
    (h1 : k ++ ['/'] <+: m) (h2 : pk ++ ['/'] <+: m) : k = pk := by
  rcases List.prefix_or_prefix_of_prefix h1 h2 with h | h
  · exact eq_of_slashfree_bounded hk hpk h
  · exact (eq_of_slashfree_bounded hpk hk h).symm

theorem data_app2 (a b c : String) : (a ++ b ++ c).data = a.data ++ b.data ++ c.data := by
  rw [String.data_append, String.data_append]

theorem refs_prepare_prune_mem {db : RefdbM} {trusted : List (PublicKey × SigrefsM)}
    {n : String} {prev : Sum Oid String} :
    UpdateM.prune n prev ∈ refs_prepare db trusted ↔
    ∃ e ∈ trusted, ∃ rf ∈ refdb_scan db ("refs/namespaces/" ++ e.1),
      to_namespaced rf.1 = some n ∧ prev = RefTarget.toPrev rf.2 ∧
      strStartsWith n ("refs/namespaces/" ++ e.1 ++ "/refs/rad") = false ∧
      n ∉ sig_signed_names e.1 e.2 := by
  unfold refs_prepare
  rw [List.mem_flatten]
  constructor
  · rintro ⟨l, hl, hm⟩
    rw [List.mem_map] at hl
    obtain ⟨e, he, rfl⟩ := hl
    unfold refs_prepare_remote at hm
    rw [List.mem_append] at hm
    rcases hm with hm | hm
    · rw [List.mem_map] at hm
      obtain ⟨x, _, hx⟩ := hm
      exact UpdateM.noConfusion hx
    · rw [List.mem_filterMap] at hm
      obtain ⟨rf, hrf, hsome⟩ := hm
      cases hns : to_namespaced rf.1 with
      | none => rw [hns] at hsome; cases hsome
      | some ns =>
        rw [hns] at hsome
        dsimp only at hsome
        split_ifs at hsome with hrad hsig
        have heq := Option.some_inj.mp hsome
        have hn : ns = n := by cases heq; rfl
        have hprev : prev = RefTarget.toPrev rf.2 := by cases heq; rfl
        subst hn
        exact ⟨e, he, rf, hrf, hns, hprev, by simpa using hrad, hsig⟩
  · rintro ⟨e, he, rf, hrf, hns, hprev, hrad, hsig⟩
    refine ⟨refs_prepare_remote db e.1 e.2, List.mem_map.mpr ⟨e, he, rfl⟩, ?_⟩
    unfold refs_prepare_remote
    rw [List.mem_append]
    right
    rw [List.mem_filterMap]
    refine ⟨rf, hrf, ?_⟩
    rw [hns]
    dsimp only
    rw [if_neg (by simp [hrad]), if_neg hsig, hprev]

theorem refs_prepare_rad_invariant {db : RefdbM} {trusted : List (PublicKey × SigrefsM)} :
    ∀ pk : PublicKey, '/' ∉ pk.data →
      (∀ e ∈ trusted, '/' ∉ e.1.data) →
      (∀ e ∈ trusted, ∀ rf ∈ db.refs,
        strStartsWith rf.1 ("refs/namespaces/" ++ e.1) = true →
        strStartsWith rf.1 ("refs/namespaces/" ++ e.1 ++ "/") = true) →
      ∀ (n : String) (prev : Sum Oid String),
        UpdateM.prune n prev ∈ refs_prepare db trusted →
        strStartsWith n ("refs/namespaces/" ++ pk ++ "/refs/rad/") = false := by
  intro pk hpk hkeys hbound n prev hmem
  obtain ⟨e, he, rf, hrf, hns, _, hrad, _⟩ := refs_prepare_prune_mem.mp hmem
  have hneq : n = rf.1 := to_namespaced_eq hns
  have hscan := List.mem_filter.mp hrf
  have hb : strStartsWith rf.1 ("refs/namespaces/" ++ e.1 ++ "/") = true :=
    hbound e he rf hscan.1 hscan.2
  rcases Bool.eq_false_or_eq_true
      (strStartsWith n ("refs/namespaces/" ++ pk ++ "/refs/rad/")) with hcon | hcon
  swap
  · exact hcon
  · exfalso
    have h1 : "refs/namespaces/".data ++ (e.1.data ++ ['/']) <+: n.data := by
      have := strStartsWith_iff.mp hb
      rw [data_app2] at this
      rw [hneq]
      have hd : ("/" : String).data = ['/'] := rfl
      rw [hd] at this
      rwa [List.append_assoc] at this
    have h2 : "refs/namespaces/".data ++ (pk.data ++ ['/']) <+: n.data := by
      have hc := strStartsWith_iff.mp hcon
      rw [data_app2] at hc
      have hsplit : ("/refs/rad/" : String).data = '/' :: "refs/rad/".data := by decide
      rw [hsplit] at hc
      refine List.IsPrefix.trans ?_ hc
      rw [List.append_assoc]
      refine (List.prefix_append_right_inj _).mpr ?_
      have : pk.data ++ ['/'] ++ "refs/rad/".data = pk.data ++ '/' :: "refs/rad/".data := by
        simp
      rw [← this]
      exact prefix_extend _ _
    obtain ⟨m1, hm1, hx1⟩ := prefix_cancel_left h1
    obtain ⟨m2, hm2, hx2⟩ := prefix_cancel_left h2
    have hmm : m1 = m2 := by
      have := hm1.symm.trans hm2
      exact List.append_cancel_left this
    rw [hmm] at hx1
    have hkeq : e.1.data = pk.data := shared_key_eq (hkeys e he) hpk hx1 hx2
    have hkeq' : e.1 = pk := String.ext hkeq
    have hfinal : strStartsWith n ("refs/namespaces/" ++ e.1 ++ "/refs/rad") = true := by
      rw [strStartsWith_iff, data_app2]
      have hcc := strStartsWith_iff.mp hcon
      rw [data_app2, ← hkeq'] at hcc
      refine List.IsPrefix.trans ?_ hcc
      refine (List.prefix_append_right_inj _).mpr ?_
      exact List.isPrefixOf_iff_prefix.mp (by decide)
    rw [hfinal] at hrad
    cases hrad

/-- C7 amended: (1) a `Prune` is produced exactly for the known refs
returned by the namespace scan of a trusted remote that parse as
namespaced, do not start with the string
`refs/namespaces/<remote>/refs/rad` (note: no trailing slash, so sibling
hierarchies such as `refs/radx` are also protected from pruning), and are
not in that remote's signed set; (2) consequently — given that public-key
strings contain no `/` and that every scanned name extends the namespace
prefix at a component boundary — no `Prune` ever targets a refname
beginning with `refs/namespaces/<pk>/refs/rad/`. -/
theorem c7_prune_targets :
    ∀ (db : RefdbM) (trusted : List (PublicKey × SigrefsM)),
      (∀ (n : String) (prev : Sum Oid String),
        UpdateM.prune n prev ∈ refs_prepare db trusted ↔
        ∃ e ∈ trusted, ∃ rf ∈ refdb_scan db ("refs/namespaces/" ++ e.1),
          to_namespaced rf.1 = some n ∧ prev = RefTarget.toPrev rf.2 ∧
          strStartsWith n ("refs/namespaces/" ++ e.1 ++ "/refs/rad") = false ∧
          n ∉ sig_signed_names e.1 e.2) ∧
      (∀ pk : PublicKey, '/' ∉ pk.data →
        (∀ e ∈ trusted, '/' ∉ e.1.data) →
        (∀ e ∈ trusted, ∀ rf ∈ db.refs,
          strStartsWith rf.1 ("refs/namespaces/" ++ e.1) = true →
          strStartsWith rf.1 ("refs/namespaces/" ++ e.1 ++ "/") = true) →
        ∀ (n : String) (prev : Sum Oid String),
          UpdateM.prune n prev ∈ refs_prepare db trusted →
          strStartsWith n ("refs/namespaces/" ++ pk ++ "/refs/rad/") = false) :=
  fun _ _ =>
    ⟨fun _ _ => refs_prepare_prune_mem, refs_prepare_rad_invariant⟩

def c7db2 : RefdbM := ⟨[("refs/namespaces/PK_A/refs/heads/main", .direct 5)], []⟩

def c7trusted2 : List (PublicKey × SigrefsM) := [("PK_A", ⟨9, []⟩)]

/-- Witness for C7 (amended): an unsigned data ref of the trusted remote
is pruned, and no prune targets the `rad` hierarchy of any key. -/
theorem c7_prune_targets_witness :
    UpdateM.prune "refs/namespaces/PK_A/refs/heads/main" (.inl 5)
        ∈ refs_prepare c7db2 c7trusted2 ∧
    strStartsWith "refs/namespaces/PK_A/refs/heads/main"
        ("refs/namespaces/" ++ "PK_B" ++ "/refs/rad/") = false := by
  have hmem := ((c7_prune_targets c7db2 c7trusted2).1
      "refs/namespaces/PK_A/refs/heads/main" (.inl 5)).mpr
    ⟨("PK_A", ⟨9, []⟩), by decide,
     ("refs/namespaces/PK_A/refs/heads/main", .direct 5), by decide,
     by decide, rfl, by decide, by decide⟩
  refine ⟨hmem, ?_⟩
  exact (c7_prune_targets c7db2 c7trusted2).2 "PK_B" (by decide) (by decide) (by decide)
    "refs/namespaces/PK_A/refs/heads/main" (.inl 5) hmem

/-! ## Applying updates to the refdb (`gix/refdb.rs`, `Refdb::update`)

`to_edits` turns an `Update` into either a rejected update or reference
edits; `update` folds `to_edits` over the batch with
`.filter_map(|r| r.ok())` — dropping every `Err` from `to_edits` — then
commits the de-duplicated edits (keyed by name, last write wins) in one
transaction.  The transaction layer is modelled by checking every edit's
expected previous value against the snapshot and applying the edits; a
failed expectation is the `Prepare` error (lock and I/O failures of gix
are not modelled). -/

inductive UpdateError
  | commitErr
  | find
  | missing (name : String)
  | nonFF (name : String) (new cur : Oid)
  | prepare
  | reload
  | revwalk
  | targetSymbolic (name : String)
  | typeChange (name : String)
deriving DecidableEq, Repr

inductive PrevValueM
  | mustNotExist
  | mustExistAndMatch (t : RefTarget)
deriving DecidableEq, Repr

inductive ChangeM
  | update (expected : PrevValueM) (new : RefTarget)
  | delete (expected : PrevValueM)
deriving DecidableEq, Repr

/-- `Edit`: a ref edit together with the pre-image oid used to synthesize
the `Updated` record (`deref` is always false in the source). -/
structure EditM where
  name : String
  change : ChangeM
  prev : Oid
deriving DecidableEq, Repr

inductive UpdatedM
  | direct (name : String) (prev : Oid) (target : Oid)
  | symbolic (name : String) (prev : Oid) (target : String)
  | prune (name : String) (prev : Oid)
deriving DecidableEq, Repr

structure AppliedM where
  rejected : List UpdateM
  updated : List UpdatedM
deriving DecidableEq, Repr

/-- `Refdb::find_snapshot`: find and peel, `error::Find` on a dangling
chain. -/
def find_snapshot (db : RefdbM) (name : String) : Except UpdateError (Option Oid) :=
  match findRef db.refs name with
  | none => .ok none
  | some t =>
    match peelRef db (db.refs.length + 1) t with
    | some o => .ok (some o)
    | none => .error .find

/-- `Refdb::direct_edit`: create when absent; otherwise fast-forward, else
apply the `no_ff` policy — `Abort` is a `NonFF` error, `Reject` a rejected
update, `Allow` a forced update. -/
def direct_edit (db : RefdbM) (name : String) (target : Oid) (no_ff : Policy) :
    Except UpdateError (Sum UpdateM (List EditM)) :=
  match find_snapshot db name with
  | .error e => .error e
  | .ok none =>
    .ok (.inr [⟨name, .update .mustNotExist (.direct target), 0⟩])
  | .ok (some prev) =>
    if is_in_ancestry_path db.odb target prev then
      .ok (.inr [⟨name, .update (.mustExistAndMatch (.direct prev)) (.direct target), prev⟩])
    else
      match no_ff with
      | .abort => .error (.nonFF name target prev)
      | .reject => .ok (.inl (.direct name target no_ff))
      | .allow =>
        .ok (.inr [⟨name, .update (.mustExistAndMatch (.direct prev)) (.direct target), prev⟩])

/-- `Refdb::symbolic_edit`. -/
def symbolic_edit (db : RefdbM) (name : String) (target : SymrefTargetM)
    (type_change : Policy) : Except UpdateError (Sum UpdateM (List EditM)) :=
  match findRef db.refs name, type_change with
  | some (.direct _), .abort => .error (.typeChange name)
  | some (.direct _), .reject => .ok (.inl (.symbolic name target type_change))
  | src, _ =>
    match findRef db.refs target.name with
    | some (.symbolic d) => .error (.targetSymbolic d)
    | none =>
      .ok (.inr [⟨target.name, .update .mustNotExist (.direct target.target), 0⟩,
                 ⟨name, .update .mustNotExist (.symbolic target.name), 0⟩])
    | some (.direct d) =>
      .ok (.inr
        ((if (target.target != d) && is_in_ancestry_path db.odb target.target d
          then [⟨target.name, .update (.mustExistAndMatch (.direct d)) (.direct target.target), d⟩]
          else []) ++
         [⟨name,
           .update (match src with
                    | some t => .mustExistAndMatch t
                    | none => .mustNotExist)
             (.symbolic target.name), d⟩]))

/-- `Refdb::to_edits`. -/
def to_edits (db : RefdbM) : UpdateM → Except UpdateError (Sum UpdateM (List EditM))
  | .direct name target no_ff => direct_edit db name target no_ff
  | .symbolic name target type_change => symbolic_edit db name target type_change
  | .prune name prev =>
    match prev with
    | .inl o =>
      .ok (.inr [⟨name, .delete (.mustExistAndMatch (.direct o)), o⟩])
    | .inr nm =>
      match refname_to_id db nm with
      | .error _ => .error .find
      | .ok none => .error (.missing nm)
      | .ok (some o) =>
        .ok (.inr [⟨name, .delete (.mustExistAndMatch (.symbolic nm)), o⟩])

/-- The de-duplicating `edits.extend(...)` keyed by refname: a later edit
for the same name replaces the earlier one. -/
def upsertEdit (e : EditM) : List EditM → List EditM
  | [] => [e]
  | e' :: rest => if e'.name = e.name then e :: rest else e' :: upsertEdit e rest

/-- The fold of `Refdb::update` over the batch.  `to_edits` errors are
dropped by `.filter_map(|r| r.ok())`; `Left` updates are collected as
rejected; `Right` edits are merged into the name-keyed edit map. -/
def collect_edits (db : RefdbM) :
    List UpdateM → List UpdateM × List EditM → List UpdateM × List EditM
  | [], acc => acc
  | u :: rest, (rej, eds) =>
    match to_edits db u with
    | .error _ => collect_edits db rest (rej, eds)
    | .ok (.inl r) => collect_edits db rest (rej ++ [r], eds)
    | .ok (.inr es) => collect_edits db rest (rej, es.foldl (fun m e => upsertEdit e m) eds)

/-- The transaction check of one edit's expected previous value against
the snapshot. -/
def check_edit (db : RefdbM) (e : EditM) : Bool :=
  match (match e.change with
         | .update expected _ => expected
         | .delete expected => expected),
        findRef db.refs e.name with
  | .mustNotExist, none => true
  | .mustExistAndMatch t, some t' => decide (t' = t)
  | _, _ => false

def upsertRef (entry : String × RefTarget) :
    List (String × RefTarget) → List (String × RefTarget)
  | [] => [entry]
  | e' :: rest => if e'.1 = entry.1 then entry :: rest else e' :: upsertRef entry rest

def apply_edit (refs : List (String × RefTarget)) (e : EditM) :
    List (String × RefTarget) :=
  match e.change with
  | .update _ nw => upsertRef (e.name, nw) refs
  | .delete _ => refs.filter (fun r => r.1 ≠ e.name)

/-- The `Updated` record synthesized at commit from an edit. -/
def edit_to_updated (e : EditM) : UpdatedM :=
  match e.change with
  | .update _ (.direct o) => .direct e.name e.prev o
  | .update _ (.symbolic s) => .symbolic e.name e.prev s
  | .delete _ => .prune e.name e.prev

/-- `Refdb::update`: fold the batch into (rejected, edits) dropping
`to_edits` errors, transaction-commit the edits, and return the applied
result together with the reloaded refdb. -/
def refdb_update (db : RefdbM) (updates : List UpdateM) :
    Except UpdateError (AppliedM × RefdbM) :=
  if ((collect_edits db updates ([], [])).2).all (check_edit db) then
    .ok (⟨(collect_edits db updates ([], [])).1,
          ((collect_edits db updates ([], [])).2).map edit_to_updated⟩,
         ⟨((collect_edits db updates ([], [])).2).foldl apply_edit db.refs, db.odb⟩)
  else .error .prepare

def c2db : RefdbM :=
  ⟨[("refs/namespaces/PK_A/refs/rad/id", .direct 1)], [(1, []), (2, [])]⟩

def c2upd : UpdateM := .direct "refs/namespaces/PK_A/refs/rad/id" 2 .abort

/-- C2: a `Direct` update with policy `Abort` whose target is not a
fast-forward of the current value makes `to_edits` return the `NonFF`
error, but `Refdb::update` drops every `to_edits` error through
`.filter_map(|r| r.ok())`: the batch succeeds with the update neither
applied nor rejected and the refdb unchanged — and no run of
`Refdb::update` can ever surface a `NonFF` error. -/
theorem c2_nonff_silently_dropped :
    (∀ (db : RefdbM) (us : List UpdateM) (e : UpdateError),
      refdb_update db us = .error e → e = .prepare) ∧
    to_edits c2db c2upd = .error (.nonFF "refs/namespaces/PK_A/refs/rad/id" 2 1) ∧
    refdb_update c2db [c2upd] = .ok (⟨[], []⟩, c2db) := by
  refine ⟨?_, by decide, by decide⟩
  intro db us e h
  unfold refdb_update at h
  split at h
  · cases h
  · cases h
    rfl

/-- Witness for C2: a delete of a non-existent ref fails the transaction
check, and the surfaced error is `Prepare`. -/
theorem c2_nonff_silently_dropped_witness :
    UpdateError.prepare = UpdateError.prepare :=
  c2_nonff_silently_dropped.1 ⟨[], []⟩ [.prune "refs/heads/x" (.inl 5)] .prepare (by decide)

end Spec2Proof
